import Mathlib

/-!
Shallow embedding of the SATNet CPU mixing-method core
(`src/satnet_cpu.cpp`) over exact real arithmetic.

Machine `float` values are modelled as real numbers; buffers are modelled
as total functions `ℕ → ℝ` (rows `ℕ → ℕ → ℝ`), with every in-place write
of the C code rendered as a functional update guarded by the extent of the
write, exactly as the loops of the source bound their stores.  Calls such
as `sdot(x, y, l)` become finite sums over `Finset.range l`.  The
transcendental calls (`sqrtf`, `acosf`, `sin`, `cos`, `M_PI`) map to
`Real.sqrt`, `Real.arccos`, `Real.sin`, `Real.cos`, `Real.pi`.
-/

namespace SATNet

/-- Models `sdot(x, y, l)`: the dot product of the first `l` entries. -/
noncomputable def sdotFn (x y : ℕ → ℝ) (l : ℕ) : ℝ :=
  ∑ j in Finset.range l, x j * y j

/-- Models `snrm2(x, l) = sqrt(sdot(x, x, l))`. -/
noncomputable def snrm2Fn (x : ℕ → ℝ) (l : ℕ) : ℝ :=
  Real.sqrt (sdotFn x x l)

/-- Models `saturate(x) = x - (x < 0) * x + (x > 1) * (1 - x)`. -/
noncomputable def saturate (x : ℝ) : ℝ :=
  x - (if x < 0 then (1 : ℝ) else 0) * x + (if x > 1 then (1 : ℝ) else 0) * (1 - x)

/-- Models C `copysign(a, b)`: the magnitude of `a` carrying the sign of `b`
(real-arithmetic rendering; reals have no negative zero, so `b = 0` keeps
`|a|`, matching `copysign` at positive zero). -/
noncomputable def copysign (a b : ℝ) : ℝ :=
  if b < 0 then -|a| else |a|

/-- The numerical floor `MEPS = 1e-24` from the source. -/
noncomputable def MEPS : ℝ := 1e-24

/-- The mutable state threaded through `mix_kernel`: the embedding matrix
(`V` in the forward call, `U` in the backward call), the accumulator
(`W` forward, `Phi` backward) and the per-variable gradient norms. -/
structure KernelSt where
  V : ℕ → ℕ → ℝ
  W : ℕ → ℕ → ℝ
  gnrm : ℕ → ℝ

/-- The visited prefix of the index array: the C loop
`for (int i, i_ = 0; (i = index[i_]); i_++)` processes ids until the first
sentinel `0`. -/
def visitList (index : List ℕ) : List ℕ :=
  index.takeWhile (fun i => i != 0)

/-- The scratch vector `g` right after the two lines
`g[kk] = sdot(Si, W + kk*m, m)` and `saxpy(g, -Sii, V + i*k, k)`:
`g = Wᵀ S_i − ‖S_i‖² V_i` (entries beyond `k` are never read). -/
noncomputable def gvec (m : ℕ) (S : ℕ → ℕ → ℝ) (Snrms : ℕ → ℝ)
    (st : KernelSt) (i : ℕ) : ℕ → ℝ :=
  fun kk => sdotFn (fun j => S i j) (fun j => st.W kk j) m - Snrms i * st.V i kk

/-- One iteration of the body of `mix_kernel` for the visited variable `i`:
returns the updated state and the contribution added to `delta`
(zero in adjoint mode, where `delta` is never incremented). -/
noncomputable def kernelStep (is_forward : Bool) (prox_lam : ℝ) (m k : ℕ)
    (S : ℕ → ℕ → ℝ) (dz : ℕ → ℝ) (Vproj : ℕ → ℕ → ℝ) (Snrms : ℕ → ℝ)
    (st : KernelSt) (i : ℕ) : KernelSt × ℝ :=
  let g1 := gvec m S Snrms st i
  let gnrmi := if is_forward then snrm2Fn g1 k else st.gnrm i + prox_lam
  let gs : ℕ → ℝ :=
    if is_forward then
      -- `sscal(g, -1, k)` then `sscal(g, 1/gnrmi, k)`
      fun kk => -1 * g1 kk * (1 / gnrmi)
    else
      -- `c = sdot(Vproj+i*k, g, k) + dz[i]*Vproj[i*k]`, then
      -- `sscal(g, -1, k); saxpy(g, c, Vproj+i*k, k); g[0] -= dz[i];
      --  sscal(g, 1/gnrmi, k)`
      let c := sdotFn (fun kk => Vproj i kk) g1 k + dz i * Vproj i 0
      let g2 : ℕ → ℝ := fun kk => -1 * g1 kk + c * Vproj i kk
      fun kk => (if kk = 0 then g2 0 - dz i else g2 kk) * (1 / gnrmi)
  -- `t = g[kk], g[kk] -= V[i*k+kk], V[i*k+kk] = t` stores the new row in V
  -- and the delta (new − old) in g
  let gdelta : ℕ → ℝ := fun kk => gs kk - st.V i kk
  let V' : ℕ → ℕ → ℝ := fun i' kk => if i' = i ∧ kk < k then gs kk else st.V i' kk
  -- `saxpy(W + kk*m, g[kk], Si, m)` for each kk < k
  let W' : ℕ → ℕ → ℝ := fun kk j =>
    if kk < k ∧ j < m then st.W kk j + gdelta kk * S i j else st.W kk j
  let gnrm' : ℕ → ℝ := if is_forward then fun i' => if i' = i then gnrmi else st.gnrm i' else st.gnrm
  let delta := if is_forward then gnrmi * sdotFn gdelta gdelta k else 0
  (⟨V', W', gnrm'⟩, delta)

/-- Models `mix_kernel`: sweeps `kernelStep` over the visited prefix of the
index array, accumulating `delta`. -/
noncomputable def mix_kernel (is_forward : Bool) (prox_lam : ℝ) (m k : ℕ)
    (index : List ℕ) (S : ℕ → ℕ → ℝ) (dz : ℕ → ℝ) (Vproj : ℕ → ℕ → ℝ)
    (Snrms : ℕ → ℝ) (st : KernelSt) : KernelSt × ℝ :=
  (visitList index).foldl
    (fun p i =>
      let r := kernelStep is_forward prox_lam m k S dz Vproj Snrms p.1 i
      (r.1, p.2 + r.2))
    (st, 0)

/-- The result of `mix_forward`: the final kernel state, the recorded
iteration count `*niter`, the number of `mix_kernel` invocations actually
made (ghost instrumentation of the loop), and the decoded-value array. -/
structure ForwardOut where
  st : KernelSt
  niter : ℕ
  calls : ℕ
  z : ℕ → ℝ

/-- The iteration loop of `mix_forward`:
`for (; iter < max_iter; iter++) { delta = mix_kernel(...);
  if (iter && delta < eps) break; if (iter == 0) eps = delta * eps; }`.
Recursion is on the remaining iteration budget `max_iter - iter`; the
returned triple is (state, final `iter` value, number of kernel calls).
The forward call passes `NULL` for `dz` and `Vproj`; these are modelled by
the zero function, which forward mode never reads. -/
noncomputable def forwardLoop (m k : ℕ) (index : List ℕ) (S : ℕ → ℕ → ℝ)
    (Snrms : ℕ → ℝ) : ℕ → ℕ → ℝ → KernelSt → KernelSt × ℕ × ℕ
  | 0, iter, _, st => (st, iter, 0)
  | r + 1, iter, eps, st =>
    let kr := mix_kernel true 0 m k index S (fun _ => 0) (fun _ _ => 0) Snrms st
    if iter ≠ 0 ∧ kr.2 < eps then (kr.1, iter, 1)
    else
      let o := forwardLoop m k index S Snrms r (iter + 1)
        (if iter = 0 then kr.2 * eps else eps) kr.1
      (o.1, o.2.1, o.2.2 + 1)

/-- The decode map applied after the forward loop:
`zi = saturate((V[i*k] + 1) / 2) * 2 - 1; zi = saturate(1 - acosf(zi) / M_PI)`. -/
noncomputable def decodeVal (x : ℝ) : ℝ :=
  saturate (1 - Real.arccos (saturate ((x + 1) / 2) * 2 - 1) / Real.pi)

/-- Models `mix_forward`: runs the iteration loop from `iter = 0` with the
caller's tolerance, records `*niter`, then decodes each visited variable's
first coordinate into `z`. -/
noncomputable def mix_forward (max_iter : ℕ) (eps : ℝ) (n m k : ℕ)
    (index : List ℕ) (S : ℕ → ℕ → ℝ) (Snrms : ℕ → ℝ) (z : ℕ → ℝ)
    (st : KernelSt) : ForwardOut :=
  let L := forwardLoop m k index S Snrms max_iter 0 eps st
  let z' := (visitList index).foldl
    (fun zz i => Function.update zz i (decodeVal (L.1.V i 0))) z
  ⟨L.1, L.2.1, L.2.2, z'⟩

/-- The state of the forward iteration after `t` full sweeps: the `t`-fold
application of the forward-mode `mix_kernel` (with the `NULL` arguments of
the `mix_forward` call site). -/
noncomputable def sweepSt (m k : ℕ) (index : List ℕ) (S : ℕ → ℕ → ℝ)
    (Snrms : ℕ → ℝ) (st : KernelSt) : ℕ → KernelSt
  | 0 => st
  | t + 1 =>
    (mix_kernel true 0 m k index S (fun _ => 0) (fun _ _ => 0) Snrms
      (sweepSt m k index S Snrms st t)).1

/-- The movement returned by the forward sweep performed at iteration `t`
(the sweep taking `sweepSt t` to `sweepSt (t+1)`). -/
noncomputable def sweepDelta (m k : ℕ) (index : List ℕ) (S : ℕ → ℕ → ℝ)
    (Snrms : ℕ → ℝ) (st : KernelSt) (t : ℕ) : ℝ :=
  (mix_kernel true 0 m k index S (fun _ => 0) (fun _ _ => 0) Snrms
    (sweepSt m k index S Snrms st t)).2

/-- The forward loop restarted at iteration `i` on the thread of sweep
states (used to characterize the loop after the first, rescaling
iteration). -/
noncomputable def floopAt (m k : ℕ) (index : List ℕ) (S : ℕ → ℕ → ℝ)
    (Snrms : ℕ → ℝ) (st : KernelSt) (r i : ℕ) (eps : ℝ) : KernelSt × ℕ × ℕ :=
  forwardLoop m k index S Snrms r i eps (sweepSt m k index S Snrms st i)

/-- The normalizing divisor computed by a forward-mode kernel step for
variable `i`: `gnrmi = snrm2(g, k)` on the gradient vector at entry. -/
noncomputable def fwdDivisor (m k : ℕ) (S : ℕ → ℕ → ℝ) (Snrms : ℕ → ℝ)
    (st : KernelSt) (i : ℕ) : ℝ :=
  snrm2Fn (gvec m S Snrms st i) k

/-- The state component of the kernel sweep over an id list (the `delta`
accumulator dropped). -/
noncomputable def kernelFoldSt (is_forward : Bool) (prox_lam : ℝ) (m k : ℕ)
    (S : ℕ → ℕ → ℝ) (dz : ℕ → ℝ) (Vproj : ℕ → ℕ → ℝ) (Snrms : ℕ → ℝ)
    (l : List ℕ) (st : KernelSt) : KernelSt :=
  l.foldl (fun s i => (kernelStep is_forward prox_lam m k S dz Vproj Snrms s i).1) st

/-- The gradient-rescaling loop at the head of `mix_backward`:
`dz[i] = dz[i] / M_PI / sin(z[i]*M_PI)` for each visited `i`. -/
noncomputable def rescaleDz (visit : List ℕ) (z : ℕ → ℝ) (dz : ℕ → ℝ) : ℕ → ℝ :=
  visit.foldl (fun d i => Function.update d i (d i / Real.pi / Real.sin (z i * Real.pi))) dz

/-- The invalid-instance test of `mix_backward`'s first loop.  In the float
source the rescaled gradient `dz[i]/M_PI/sin(z[i]*M_PI)` is non-finite
(`isnan || isinf`) exactly when the divisor `sin(z[i]*M_PI)` is zero; in
exact real arithmetic that divisor condition is the faithful rendering.
The second disjunct is the floor test `gnrm[i] < MEPS`. -/
def backInvalid (visit : List ℕ) (z gnrm : ℕ → ℝ) : Prop :=
  ∃ i ∈ visit, Real.sin (z i * Real.pi) = 0 ∨ gnrm i < MEPS

/-- The adjoint iteration of `mix_backward`:
`for (int iter = 0; iter < *niter; iter++) mix_kernel(0, ...)`,
instrumented with the number of kernel calls made. -/
noncomputable def adjointLoop (prox_lam : ℝ) (m k : ℕ) (index : List ℕ)
    (S : ℕ → ℕ → ℝ) (dz : ℕ → ℝ) (Vproj : ℕ → ℕ → ℝ) (Snrms : ℕ → ℝ) :
    ℕ → KernelSt → KernelSt × ℕ
  | 0, st => (st, 0)
  | t + 1, st =>
    let kr := mix_kernel false prox_lam m k index S dz Vproj Snrms st
    let o := adjointLoop prox_lam m k index S dz Vproj Snrms t kr.1
    (o.1, o.2 + 1)

/-- The result of `mix_backward`: the gradient arrays it owns on exit and
the number of adjoint-mode `mix_kernel` invocations (ghost counter). -/
structure BackwardOut where
  dz : ℕ → ℝ
  dS : ℕ → ℕ → ℝ
  U : ℕ → ℕ → ℝ
  Phi : ℕ → ℕ → ℝ
  calls : ℕ

open Classical in
/-- Models `mix_backward`.  The rescaling loop rewrites `dz`; if any visited
variable trips the invalid test, `szero(dz, n)` runs and the function
returns with `dS`, `U`, `Phi` untouched.  Otherwise the adjoint sweeps run
`niter` times on the state `(U, Phi, gnrm)` with `Vproj := V`.  The
post-sweep `isnan/isinf` scan over `U` can never fire in exact real
arithmetic (every entry is a real number), so the second early return is
unreachable in this model.  Then `dS += U·W + V·Phi` row by row, and the
final loop writes the input-variable gradients for `i = 1 .. n-1`. -/
noncomputable def mix_backward (prox_lam : ℝ) (n m k : ℕ) (is_input : ℕ → Bool)
    (index : List ℕ) (niter : ℕ) (S : ℕ → ℕ → ℝ) (dS : ℕ → ℕ → ℝ)
    (z dz : ℕ → ℝ) (V U W Phi : ℕ → ℕ → ℝ) (gnrm Snrms : ℕ → ℝ) : BackwardOut :=
  let visit := visitList index
  let dz1 := rescaleDz visit z dz
  if backInvalid visit z gnrm then
    ⟨fun i => if i < n then 0 else dz1 i, dS, U, Phi, 0⟩
  else
    let A := adjointLoop prox_lam m k index S dz1 V Snrms niter ⟨U, Phi, gnrm⟩
    let U' := A.1.V
    let Phi' := A.1.W
    let dS' : ℕ → ℕ → ℝ := fun i j =>
      if i < n ∧ j < m then
        dS i j + ∑ kk in Finset.range k, (U' i kk * W kk j + V i kk * Phi' kk j)
      else dS i j
    let dz2 : ℕ → ℝ := fun i =>
      if 1 ≤ i ∧ i < n then
        if is_input i then
          (dz1 i + sdotFn (fun j => S i j) (fun j => Phi' 0 j) m)
              * Real.sin (z i * Real.pi) * Real.pi
            + sdotFn (fun j => S i j) (fun j => Phi' 1 j) m
              * copysign (Real.cos (z i * Real.pi) * Real.pi) (V i 1) * Real.pi
        else 0
      else dz1 i
    ⟨dz2, dS', U', Phi', A.2⟩

/-- Models the `V`-initialization loop of `mix_init`: an input row `i` is
zeroed and set to `(-cos(z_i π), copysign(sin(z_i π), old V[i][1]), 0, …)`;
a free row is scaled by `1 / sqrtf(sdot(row, row, k))`. -/
noncomputable def mix_init_V (n k : ℕ) (is_input : ℕ → Bool) (z : ℕ → ℝ)
    (V : ℕ → ℕ → ℝ) : ℕ → ℕ → ℝ :=
  fun i kk =>
    if i < n then
      if is_input i then
        if kk = 0 then -Real.cos (z i * Real.pi)
        else if kk = 1 then copysign (Real.sin (z i * Real.pi)) (V i 1)
        else if kk < k then 0
        else V i kk
      else
        if kk < k then V i kk * (1 / Real.sqrt (sdotFn (fun j => V i j) (fun j => V i j) k))
        else V i kk
    else V i kk

/-- Models the index-building loop of `mix_init`: walk `perm[0 .. n-2]`,
append `perm[i_] + 1` when that id is not an input, then pad with the
sentinel `0` up to length `n`. -/
def mix_init_index (perm : ℕ → ℕ) (n : ℕ) (is_input : ℕ → Bool) : List ℕ :=
  let ids := ((List.range (n - 1)).map (fun i_ => perm i_ + 1)).filter
    (fun i => !is_input i)
  ids ++ List.replicate (n - ids.length) 0

/-! ### Concrete instances used for witnesses and counterexamples -/

/-- Index array `[1, 0]` of an instance with one free variable (id 1). -/
def exIndex : List ℕ := [1, 0]

/-- Index array `[0, 0]`: every slot is the sentinel, no variable visited. -/
def exIndex0 : List ℕ := [0, 0]

/-- Weight matrix with every entry 1 (used with `m = 1`). -/
noncomputable def exS : ℕ → ℕ → ℝ := fun _ _ => 1

/-- Weight matrix with every entry 0. -/
noncomputable def exSzero : ℕ → ℕ → ℝ := fun _ _ => 0

/-- Precomputed squared row norms, all 1. -/
noncomputable def exSnrms : ℕ → ℝ := fun _ => 1

/-- All-zero embedding matrix. -/
noncomputable def exV0 : ℕ → ℕ → ℝ := fun _ _ => 0

/-- Accumulator with every entry `-1`. -/
noncomputable def exW0 : ℕ → ℕ → ℝ := fun _ _ => -1

/-- Initial kernel state for the forward example: `V = 0`, `W = -1`,
`gnrm = 0`.  With `n = 2, m = 1, k = 1, S = 1, Snrms = 1` the first sweep
moves variable 1 to `V 1 0 = 1` with movement 1, and the second sweep has
movement 0. -/
noncomputable def exSt0 : KernelSt := ⟨exV0, exW0, fun _ => 0⟩

/-- Incoming decoded-value array, constant 5 (to observe frame effects). -/
noncomputable def exZ : ℕ → ℝ := fun _ => 5

/-- Decoded values all 1/2 (non-degenerate for the backward pass:
`sin(π/2) = 1`). -/
noncomputable def exZhalf : ℕ → ℝ := fun _ => 1 / 2

/-- Decoded values all 0 (degenerate for the backward pass: `sin 0 = 0`). -/
noncomputable def exZzero : ℕ → ℝ := fun _ => 0

/-- Gradient norms all 1 (above the `MEPS` floor). -/
noncomputable def exGnrm1 : ℕ → ℝ := fun _ => 1

/-- Incoming weight-gradient matrix with every entry 5. -/
noncomputable def exDS5 : ℕ → ℕ → ℝ := fun _ _ => 5

/-- Incoming decoded-value gradient, constant 1. -/
noncomputable def exDZ1 : ℕ → ℝ := fun _ => 1

/-- All-one matrix (forward-solution embeddings for the adjoint example). -/
noncomputable def exVone : ℕ → ℕ → ℝ := fun _ _ => 1

/-- All-zero matrix. -/
noncomputable def exZeroM : ℕ → ℕ → ℝ := fun _ _ => 0

/-- All-zero vector. -/
noncomputable def exZeroV : ℕ → ℝ := fun _ => 0

/-! ### Helper lemmas -/

lemma mem_visitList_ne_zero {index : List ℕ} {i : ℕ} (h : i ∈ visitList index) :
    i ≠ 0 := by
  simpa using List.mem_takeWhile_imp h

/-- Frame property of a single kernel step: rows other than the visited one
are untouched. -/
lemma kernelStep_V_frame (is_forward : Bool) (prox_lam : ℝ) (m k : ℕ)
    (S : ℕ → ℕ → ℝ) (dz : ℕ → ℝ) (Vproj : ℕ → ℕ → ℝ) (Snrms : ℕ → ℝ)
    (st : KernelSt) (i j kk : ℕ) (hj : j ≠ i) :
    (kernelStep is_forward prox_lam m k S dz Vproj Snrms st i).1.V j kk
      = st.V j kk := by
  simp [kernelStep, hj]

/-- Frame property of the kernel fold: rows whose id does not occur in the
swept list are untouched. -/
lemma kernelFold_V_frame (is_forward : Bool) (prox_lam : ℝ) (m k : ℕ)
    (S : ℕ → ℕ → ℝ) (dz : ℕ → ℝ) (Vproj : ℕ → ℕ → ℝ) (Snrms : ℕ → ℝ) :
    ∀ (l : List ℕ) (st : KernelSt) (d : ℝ) (j kk : ℕ), j ∉ l →
      ((l.foldl (fun p i =>
          let r := kernelStep is_forward prox_lam m k S dz Vproj Snrms p.1 i
          (r.1, p.2 + r.2)) (st, d)).1.V j kk) = st.V j kk := by
  intro l
  induction l with
  | nil => intro st d j kk _; rfl
  | cons a l ih =>
    intro st d j kk hj
    have hja : j ≠ a := fun h => hj (h ▸ List.mem_cons_self a l)
    have hjl : j ∉ l := fun h => hj (List.mem_cons_of_mem a h)
    simpa [List.foldl_cons, ih _ _ j kk hjl] using
      kernelStep_V_frame is_forward prox_lam m k S dz Vproj Snrms st a j kk hja

/-- `mix_kernel` never updates a row outside the visited prefix. -/
lemma mix_kernel_V_frame (is_forward : Bool) (prox_lam : ℝ) (m k : ℕ)
    (index : List ℕ) (S : ℕ → ℕ → ℝ) (dz : ℕ → ℝ) (Vproj : ℕ → ℕ → ℝ)
    (Snrms : ℕ → ℝ) (st : KernelSt) (j kk : ℕ) (hj : j ∉ visitList index) :
    (mix_kernel is_forward prox_lam m k index S dz Vproj Snrms st).1.V j kk
      = st.V j kk :=
  kernelFold_V_frame is_forward prox_lam m k S dz Vproj Snrms
    (visitList index) st 0 j kk hj

/-- `mix_kernel` never updates row 0. -/
lemma mix_kernel_V_row0 (is_forward : Bool) (prox_lam : ℝ) (m k : ℕ)
    (index : List ℕ) (S : ℕ → ℕ → ℝ) (dz : ℕ → ℝ) (Vproj : ℕ → ℕ → ℝ)
    (Snrms : ℕ → ℝ) (st : KernelSt) (kk : ℕ) :
    (mix_kernel is_forward prox_lam m k index S dz Vproj Snrms st).1.V 0 kk
      = st.V 0 kk :=
  mix_kernel_V_frame is_forward prox_lam m k index S dz Vproj Snrms st 0 kk
    (fun h => (mem_visitList_ne_zero h) rfl)

/-- Unfolding of one iteration of the restarted loop. -/
lemma floopAt_succ (m k : ℕ) (index : List ℕ) (S : ℕ → ℕ → ℝ)
    (Snrms : ℕ → ℝ) (st : KernelSt) (r i : ℕ) (eps : ℝ) :
    floopAt m k index S Snrms st (r + 1) i eps =
      if i ≠ 0 ∧ sweepDelta m k index S Snrms st i < eps then
        (sweepSt m k index S Snrms st (i + 1), i, 1)
      else
        let o := floopAt m k index S Snrms st r (i + 1)
          (if i = 0 then sweepDelta m k index S Snrms st i * eps else eps)
        (o.1, o.2.1, o.2.2 + 1) := rfl

/-- Characterization of the forward loop restarted at an iteration `i ≥ 1`:
the recorded count stays in `[i, i + r]`, the number of kernel calls is
`min r (count - i + 1)`, no sweep strictly before the recorded count was
below tolerance, and if the budget was not exhausted the sweep at the
recorded count was below tolerance. -/
lemma floopAt_char (m k : ℕ) (index : List ℕ) (S : ℕ → ℕ → ℝ)
    (Snrms : ℕ → ℝ) (st : KernelSt) :
    ∀ (r i : ℕ) (eps : ℝ), 1 ≤ i →
      i ≤ (floopAt m k index S Snrms st r i eps).2.1 ∧
      (floopAt m k index S Snrms st r i eps).2.1 ≤ i + r ∧
      (floopAt m k index S Snrms st r i eps).2.2
        = min r ((floopAt m k index S Snrms st r i eps).2.1 - i + 1) ∧
      (∀ j, i ≤ j → j < (floopAt m k index S Snrms st r i eps).2.1 →
        ¬ sweepDelta m k index S Snrms st j < eps) ∧
      ((floopAt m k index S Snrms st r i eps).2.1 < i + r →
        sweepDelta m k index S Snrms st
          (floopAt m k index S Snrms st r i eps).2.1 < eps) := by
  intro r
  induction r with
  | zero =>
    intro i eps hi
    simp only [floopAt, forwardLoop]
    refine ⟨le_refl _, by omega, by omega, ?_, ?_⟩
    · intro j h1 h2
      omega
    · intro h
      exact absurd h (by omega)
  | succ r ih =>
    intro i eps hi
    by_cases hc : sweepDelta m k index S Snrms st i < eps
    · rw [floopAt_succ, if_pos ⟨by omega, hc⟩]
      dsimp only
      refine ⟨le_refl _, by omega, by omega, ?_, fun _ => hc⟩
      intro j h1 h2
      omega
    · have hcond : ¬ (i ≠ 0 ∧ sweepDelta m k index S Snrms st i < eps) :=
        fun h => hc h.2
      rw [floopAt_succ, if_neg hcond]
      have hi' : ¬ i = 0 := by omega
      simp only [if_neg hi']
      obtain ⟨a1, a2, a3, a4, a5⟩ := ih (i + 1) eps (by omega)
      refine ⟨by omega, by omega, by omega, ?_, ?_⟩
      · intro j h1 h2
        rcases eq_or_lt_of_le h1 with h | h
        · simpa [← h] using hc
        · exact a4 j (by omega) h2
      · intro h
        exact a5 (by omega)

/-- The iteration count, call count and stopping behaviour of
`mix_forward`, phrased through the sweep-state thread. -/
lemma mix_forward_char (max_iter : ℕ) (eps : ℝ) (n m k : ℕ)
    (index : List ℕ) (S : ℕ → ℕ → ℝ) (Snrms : ℕ → ℝ) (z : ℕ → ℝ)
    (st : KernelSt) :
    (mix_forward max_iter eps n m k index S Snrms z st).niter ≤ max_iter ∧
    (mix_forward max_iter eps n m k index S Snrms z st).calls
      = min max_iter ((mix_forward max_iter eps n m k index S Snrms z st).niter + 1) ∧
    (∀ j, 1 ≤ j → j < (mix_forward max_iter eps n m k index S Snrms z st).niter →
      ¬ sweepDelta m k index S Snrms st j
          < sweepDelta m k index S Snrms st 0 * eps) ∧
    ((mix_forward max_iter eps n m k index S Snrms z st).niter < max_iter →
      1 ≤ (mix_forward max_iter eps n m k index S Snrms z st).niter ∧
      sweepDelta m k index S Snrms st
          (mix_forward max_iter eps n m k index S Snrms z st).niter
        < sweepDelta m k index S Snrms st 0 * eps) := by
  cases max_iter with
  | zero =>
    refine ⟨le_refl _, rfl, ?_, ?_⟩
    · intro j h1 h2
      simp only [mix_forward, forwardLoop] at h2
      omega
    · intro h
      simp only [mix_forward, forwardLoop] at h
      omega
  | succ r =>
    have hr : (mix_forward (r + 1) eps n m k index S Snrms z st).niter
        = (floopAt m k index S Snrms st r 1
            (sweepDelta m k index S Snrms st 0 * eps)).2.1 := rfl
    have hcalls : (mix_forward (r + 1) eps n m k index S Snrms z st).calls
        = (floopAt m k index S Snrms st r 1
            (sweepDelta m k index S Snrms st 0 * eps)).2.2 + 1 := rfl
    obtain ⟨a1, a2, a3, a4, a5⟩ := floopAt_char m k index S Snrms st r 1
      (sweepDelta m k index S Snrms st 0 * eps) (le_refl 1)
    refine ⟨by omega, by omega, ?_, ?_⟩
    · intro j h1 h2
      exact a4 j h1 (by omega)
    · intro h
      rw [hr] at h ⊢
      exact ⟨by omega, a5 (by omega)⟩

lemma visit_exIndex : visitList exIndex = [1] := rfl

lemma visit_exIndex0 : visitList exIndex0 = [] := rfl

/-- First forward sweep of the concrete instance: movement 1. -/
lemma ex1_d0 :
    (mix_kernel true 0 1 1 exIndex exS (fun _ => 0) (fun _ _ => 0) exSnrms exSt0).2
      = 1 := by
  simp [mix_kernel, visit_exIndex, kernelStep, gvec, sdotFn, snrm2Fn,
    exS, exSnrms, exSt0, exV0, exW0]

/-- First forward sweep of the concrete instance: variable 1 moves to 1. -/
lemma ex1_V1 :
    (mix_kernel true 0 1 1 exIndex exS (fun _ => 0) (fun _ _ => 0) exSnrms exSt0).1.V 1 0
      = 1 := by
  simp [mix_kernel, visit_exIndex, kernelStep, gvec, sdotFn, snrm2Fn,
    exS, exSnrms, exSt0, exV0, exW0]

/-- First forward sweep of the concrete instance: the accumulator becomes 0. -/
lemma ex1_W1 :
    (mix_kernel true 0 1 1 exIndex exS (fun _ => 0) (fun _ _ => 0) exSnrms exSt0).1.W 0 0
      = 0 := by
  simp [mix_kernel, visit_exIndex, kernelStep, gvec, sdotFn, snrm2Fn,
    exS, exSnrms, exSt0, exV0, exW0]

/-- Any later forward sweep of the concrete instance from the moved state
has movement 0. -/
lemma ex1_d1 (st : KernelSt) (hV : st.V 1 0 = 1) (hW : st.W 0 0 = 0) :
    (mix_kernel true 0 1 1 exIndex exS (fun _ => 0) (fun _ _ => 0) exSnrms st).2
      = 0 := by
  simp [mix_kernel, visit_exIndex, kernelStep, gvec, sdotFn, snrm2Fn,
    exS, exSnrms, hV, hW]

lemma ex1_sweepDelta0 : sweepDelta 1 1 exIndex exS exSnrms exSt0 0 = 1 := ex1_d0

lemma ex1_sweepDelta1 : sweepDelta 1 1 exIndex exS exSnrms exSt0 1 = 0 :=
  ex1_d1 _ ex1_V1 ex1_W1

/-- On the concrete instance the forward pass records `niter = 1`. -/
lemma ex1_niter : (mix_forward 2 1 2 1 1 exIndex exS exSnrms exZ exSt0).niter = 1 := by
  obtain ⟨a1, a2, a3, a4⟩ := mix_forward_char 2 1 2 1 1 exIndex exS exSnrms exZ exSt0
  by_cases h : (mix_forward 2 1 2 1 1 exIndex exS exSnrms exZ exSt0).niter < 2
  · obtain ⟨b1, _⟩ := a4 h
    omega
  · exfalso
    have := a3 1 (le_refl 1) (by omega)
    rw [ex1_sweepDelta1, ex1_sweepDelta0] at this
    exact this (by norm_num)

/-- On the concrete instance the forward pass makes 2 kernel calls. -/
lemma ex1_calls : (mix_forward 2 1 2 1 1 exIndex exS exSnrms exZ exSt0).calls = 2 := by
  obtain ⟨a1, a2, a3, a4⟩ := mix_forward_char 2 1 2 1 1 exIndex exS exSnrms exZ exSt0
  rw [a2, ex1_niter]
  omega

/-- The adjoint loop of `mix_backward` makes exactly as many kernel calls
as its bound. -/
lemma adjointLoop_count (prox_lam : ℝ) (m k : ℕ) (index : List ℕ)
    (S : ℕ → ℕ → ℝ) (dz : ℕ → ℝ) (Vproj : ℕ → ℕ → ℝ) (Snrms : ℕ → ℝ) :
    ∀ (t : ℕ) (st : KernelSt),
      (adjointLoop prox_lam m k index S dz Vproj Snrms t st).2 = t := by
  intro t
  induction t with
  | zero => intro st; rfl
  | succ t ih => intro st; simp [adjointLoop, ih]

/-- On the invalid path `mix_backward` zeroes `dz[0..n)` and returns with
every other buffer untouched and no adjoint kernel call. -/
lemma mix_backward_invalid_eq (prox_lam : ℝ) (n m k : ℕ) (is_input : ℕ → Bool)
    (index : List ℕ) (niter : ℕ) (S dS : ℕ → ℕ → ℝ) (z dz : ℕ → ℝ)
    (V U W Phi : ℕ → ℕ → ℝ) (gnrm Snrms : ℕ → ℝ)
    (h : backInvalid (visitList index) z gnrm) :
    mix_backward prox_lam n m k is_input index niter S dS z dz V U W Phi gnrm Snrms
      = ⟨fun i => if i < n then 0 else rescaleDz (visitList index) z dz i,
          dS, U, Phi, 0⟩ := by
  simp only [mix_backward]
  rw [if_pos h]

/-- On the valid path `mix_backward` makes exactly `niter` adjoint kernel
calls. -/
lemma mix_backward_calls (prox_lam : ℝ) (n m k : ℕ) (is_input : ℕ → Bool)
    (index : List ℕ) (niter : ℕ) (S dS : ℕ → ℕ → ℝ) (z dz : ℕ → ℝ)
    (V U W Phi : ℕ → ℕ → ℝ) (gnrm Snrms : ℕ → ℝ)
    (h : ¬ backInvalid (visitList index) z gnrm) :
    (mix_backward prox_lam n m k is_input index niter S dS z dz V U W Phi gnrm
      Snrms).calls = niter := by
  simp only [mix_backward]
  rw [if_neg h]
  exact adjointLoop_count prox_lam m k index S
    (rescaleDz (visitList index) z dz) V Snrms niter ⟨U, Phi, gnrm⟩

lemma sin_half_mul_pi : Real.sin ((1 / 2 : ℝ) * Real.pi) = 1 := by
  rw [show ((1 : ℝ) / 2) * Real.pi = Real.pi / 2 by ring]
  exact Real.sin_pi_div_two

/-- The concrete backward instance with `z = 1/2`, `gnrm = 1` is valid. -/
lemma exBack_not_invalid : ¬ backInvalid (visitList exIndex) exZhalf exGnrm1 := by
  rintro ⟨i, _, h | h⟩
  · rw [show exZhalf i = 1 / 2 from rfl, sin_half_mul_pi] at h
    exact one_ne_zero h
  · rw [show exGnrm1 i = 1 from rfl] at h
    norm_num [MEPS] at h

/-- The concrete backward instance with `z = 0` is flagged invalid. -/
lemma exBack_invalid : backInvalid (visitList exIndex) exZzero exGnrm1 := by
  refine ⟨1, ?_, Or.inl ?_⟩
  · rw [visit_exIndex]
    exact List.mem_singleton.mpr rfl
  · rw [show exZzero 1 = 0 from rfl, zero_mul, Real.sin_zero]

/-- Claim C1, counterexample: on a concrete instance whose second sweep
converges, `mix_forward` makes two kernel invocations but records
`*niter = 1`, so the stored count differs from the invocation count. -/
theorem claim_C1_counterexample :
    (mix_forward 2 1 2 1 1 exIndex exS exSnrms exZ exSt0).niter
      ≠ (mix_forward 2 1 2 1 1 exIndex exS exSnrms exZ exSt0).calls := by
  rw [ex1_niter, ex1_calls]
  omega

/-- Claim C1, amended: `mix_forward` stores in `*niter` the loop index at
exit, which equals `min max_iter (calls)` rewritten as
`calls = min max_iter (*niter + 1)` — the invocation count when the loop
exhausts `max_iter`, and one less than the invocation count when it breaks
on convergence; and on the non-degenerate path `mix_backward` invokes the
adjoint kernel exactly `*niter` times. -/
theorem claim_C1_amended :
    (∀ (max_iter : ℕ) (eps : ℝ) (n m k : ℕ) (index : List ℕ) (S : ℕ → ℕ → ℝ)
      (Snrms : ℕ → ℝ) (z : ℕ → ℝ) (st : KernelSt),
      (mix_forward max_iter eps n m k index S Snrms z st).calls
        = min max_iter ((mix_forward max_iter eps n m k index S Snrms z st).niter + 1))
    ∧ (∀ (prox_lam : ℝ) (n m k : ℕ) (is_input : ℕ → Bool) (index : List ℕ)
        (niter : ℕ) (S dS : ℕ → ℕ → ℝ) (z dz : ℕ → ℝ) (V U W Phi : ℕ → ℕ → ℝ)
        (gnrm Snrms : ℕ → ℝ),
        ¬ backInvalid (visitList index) z gnrm →
        (mix_backward prox_lam n m k is_input index niter S dS z dz V U W Phi
          gnrm Snrms).calls = niter) := by
  constructor
  · intro max_iter eps n m k index S Snrms z st
    exact (mix_forward_char max_iter eps n m k index S Snrms z st).2.1
  · intro prox_lam n m k is_input index niter S dS z dz V U W Phi gnrm Snrms h
    exact mix_backward_calls prox_lam n m k is_input index niter S dS z dz V U W
      Phi gnrm Snrms h

/-- Witness for the amended claim C1 at concrete inputs: the backward pass
on a valid instance with `niter = 3` makes exactly 3 adjoint kernel calls. -/
theorem claim_C1_amended_witness :
    (mix_backward 0 2 1 1 (fun _ => false) exIndex 3 exS exDS5 exZhalf exDZ1
      exVone exV0 exZeroM exZeroM exGnrm1 exSnrms).calls = 3 :=
  claim_C1_amended.2 0 2 1 1 (fun _ => false) exIndex 3 exS exDS5 exZhalf exDZ1
    exVone exV0 exZeroM exZeroM exGnrm1 exSnrms exBack_not_invalid

/-- Claim C5: the forward stopping rule — the convergence test is never
applied on the first iteration, from the second iteration on the loop stops
at the first sweep whose movement is below the tolerance rescaled by the
first sweep's movement (`eps ← delta₀ · eps`), and otherwise it runs until
`max_iter` sweeps were performed; exhausting `max_iter` returns normally. -/
theorem claim_C5 :
    ∀ (max_iter : ℕ) (eps : ℝ) (n m k : ℕ) (index : List ℕ) (S : ℕ → ℕ → ℝ)
      (Snrms : ℕ → ℝ) (z : ℕ → ℝ) (st : KernelSt),
      (mix_forward max_iter eps n m k index S Snrms z st).niter ≤ max_iter ∧
      (∀ j, 1 ≤ j → j < (mix_forward max_iter eps n m k index S Snrms z st).niter →
        ¬ sweepDelta m k index S Snrms st j
            < sweepDelta m k index S Snrms st 0 * eps) ∧
      ((mix_forward max_iter eps n m k index S Snrms z st).niter < max_iter →
        1 ≤ (mix_forward max_iter eps n m k index S Snrms z st).niter ∧
        sweepDelta m k index S Snrms st
            (mix_forward max_iter eps n m k index S Snrms z st).niter
          < sweepDelta m k index S Snrms st 0 * eps) := by
  intro max_iter eps n m k index S Snrms z st
  obtain ⟨a1, _, a3, a4⟩ := mix_forward_char max_iter eps n m k index S Snrms z st
  exact ⟨a1, a3, a4⟩

/-- Witness for claim C5: on the concrete instance the loop stopped before
`max_iter = 2` because the sweep at the recorded iteration count moved less
than the rescaled tolerance. -/
theorem claim_C5_witness :
    1 ≤ (mix_forward 2 1 2 1 1 exIndex exS exSnrms exZ exSt0).niter ∧
    sweepDelta 1 1 exIndex exS exSnrms exSt0
        (mix_forward 2 1 2 1 1 exIndex exS exSnrms exZ exSt0).niter
      < sweepDelta 1 1 exIndex exS exSnrms exSt0 0 * 1 :=
  (claim_C5 2 1 2 1 1 exIndex exS exSnrms exZ exSt0).2.2
    (by rw [ex1_niter]; omega)

/-- Claim C8: if the first sweep's movement is exactly 0, the rescaled
tolerance is 0, the strict test `delta < 0` never fires on non-negative
movements, so the loop performs all `max_iter` sweeps and records
`niter = max_iter`. -/
theorem claim_C8 :
    ∀ (max_iter : ℕ) (eps : ℝ) (n m k : ℕ) (index : List ℕ) (S : ℕ → ℕ → ℝ)
      (Snrms : ℕ → ℝ) (z : ℕ → ℝ) (st : KernelSt),
      sweepDelta m k index S Snrms st 0 = 0 →
      (∀ j, 1 ≤ j → 0 ≤ sweepDelta m k index S Snrms st j) →
      (mix_forward max_iter eps n m k index S Snrms z st).niter = max_iter ∧
      (mix_forward max_iter eps n m k index S Snrms z st).calls = max_iter := by
  intro max_iter eps n m k index S Snrms z st h0 hpos
  obtain ⟨a1, a2, a3, a4⟩ := mix_forward_char max_iter eps n m k index S Snrms z st
  have hniter : (mix_forward max_iter eps n m k index S Snrms z st).niter = max_iter := by
    by_contra hne
    obtain ⟨b1, b2⟩ := a4 (by omega)
    rw [h0, zero_mul] at b2
    exact absurd b2 (not_lt.mpr (hpos _ b1))
  refine ⟨hniter, ?_⟩
  rw [a2, hniter]
  omega

/-- Witness for claim C8: an instance whose index array is all sentinels
has every sweep movement 0, and the forward pass runs all `max_iter = 2`
sweeps. -/
theorem claim_C8_witness :
    (mix_forward 2 1 2 1 1 exIndex0 exS exSnrms exZ exSt0).niter = 2 ∧
    (mix_forward 2 1 2 1 1 exIndex0 exS exSnrms exZ exSt0).calls = 2 :=
  claim_C8 2 1 2 1 1 exIndex0 exS exSnrms exZ exSt0
    (by simp [sweepDelta, mix_kernel, visit_exIndex0])
    (fun j _ => by simp [sweepDelta, mix_kernel, visit_exIndex0])

/-- Frame property of an in-place update loop: indices not in the list keep
their value (the written value may depend on the current array state, as in
the rescaling loop of `mix_backward`). -/
lemma foldl_update_frame (g : (ℕ → ℝ) → ℕ → ℝ) :
    ∀ (l : List ℕ) (d : ℕ → ℝ) (j : ℕ), j ∉ l →
      (l.foldl (fun d i => Function.update d i (g d i)) d) j = d j := by
  intro l
  induction l with
  | nil => intro d j _; rfl
  | cons a l ih =>
    intro d j hj
    have hja : j ≠ a := fun h => hj (h ▸ List.mem_cons_self a l)
    have hjl : j ∉ l := fun h => hj (List.mem_cons_of_mem a h)
    rw [List.foldl_cons, ih _ j hjl, Function.update_apply, if_neg hja]

/-- Value property of an in-place update loop whose written value depends
only on the index (as in the decode loop of `mix_forward`): every listed
index ends up holding its value. -/
lemma foldl_update_apply (f : ℕ → ℝ) :
    ∀ (l : List ℕ) (z : ℕ → ℝ) (i : ℕ), i ∈ l →
      (l.foldl (fun zz i' => Function.update zz i' (f i')) z) i = f i := by
  intro l
  induction l with
  | nil => intro z i hi; exact absurd hi (List.not_mem_nil i)
  | cons a l ih =>
    intro z i hi
    rw [List.foldl_cons]
    by_cases hil : i ∈ l
    · exact ih _ i hil
    · have hia : i = a := by
        rcases List.mem_cons.mp hi with h | h
        · exact h
        · exact absurd h hil
      rw [foldl_update_frame (fun _ i' => f i') l _ i hil, hia,
        Function.update_same]

/-- The rescaling loop of `mix_backward` leaves unvisited entries of `dz`
alone; in particular `dz[0]` is never rescaled. -/
lemma rescaleDz_frame (visit : List ℕ) (z dz : ℕ → ℝ) (j : ℕ)
    (hj : j ∉ visit) : rescaleDz visit z dz j = dz j :=
  foldl_update_frame (fun d i => d i / Real.pi / Real.sin (z i * Real.pi))
    visit dz j hj

/-- The sentinel id 0 is never visited. -/
lemma zero_not_mem_visitList (index : List ℕ) : 0 ∉ visitList index :=
  fun h => mem_visitList_ne_zero h rfl

/-- `saturate` maps every real into `[0, 1]`. -/
lemma saturate_bounds (x : ℝ) : 0 ≤ saturate x ∧ saturate x ≤ 1 := by
  unfold saturate
  split_ifs with h1 h2 h2 <;> constructor <;> linarith

/-- Claim C2, counterexample: on a degenerate instance (`z = 0`, so the
decode derivative blows up) `mix_backward` takes the invalid path — it
zeroes `dz` — but the `dS` array is left at its incoming value 5, not
zeroed. -/
theorem claim_C2_counterexample :
    (mix_backward 0 2 1 1 (fun _ => false) exIndex 1 exS exDS5 exZzero exDZ1
      exVone exV0 exZeroM exZeroM exGnrm1 exSnrms).dz 0 = 0 ∧
    (mix_backward 0 2 1 1 (fun _ => false) exIndex 1 exS exDS5 exZzero exDZ1
      exVone exV0 exZeroM exZeroM exGnrm1 exSnrms).dS 0 0 = 5 ∧
    (5 : ℝ) ≠ 0 := by
  rw [mix_backward_invalid_eq 0 2 1 1 (fun _ => false) exIndex 1 exS exDS5
    exZzero exDZ1 exVone exV0 exZeroM exZeroM exGnrm1 exSnrms exBack_invalid]
  refine ⟨rfl, rfl, by norm_num⟩

/-- Claim C2, amended: when an instance is flagged invalid during the
gradient rescaling (non-finite rescaled gradient, i.e. zero decode-derivative
divisor, or stored gradient norm below the 1e-24 floor), `mix_backward`
zeroes the `dz` array over `[0, n)` and returns normally without running any
adjoint sweep; the `dS` array is left unchanged (not zeroed).  (The third
trigger of the original claim — a non-finite entry of `U` after the adjoint
sweeps — cannot fire in exact real arithmetic.) -/
theorem claim_C2_amended :
    ∀ (prox_lam : ℝ) (n m k : ℕ) (is_input : ℕ → Bool) (index : List ℕ)
      (niter : ℕ) (S dS : ℕ → ℕ → ℝ) (z dz : ℕ → ℝ) (V U W Phi : ℕ → ℕ → ℝ)
      (gnrm Snrms : ℕ → ℝ),
      backInvalid (visitList index) z gnrm →
      (∀ i, i < n →
        (mix_backward prox_lam n m k is_input index niter S dS z dz V U W Phi
          gnrm Snrms).dz i = 0) ∧
      (∀ i j,
        (mix_backward prox_lam n m k is_input index niter S dS z dz V U W Phi
          gnrm Snrms).dS i j = dS i j) ∧
      (mix_backward prox_lam n m k is_input index niter S dS z dz V U W Phi
        gnrm Snrms).calls = 0 := by
  intro prox_lam n m k is_input index niter S dS z dz V U W Phi gnrm Snrms h
  rw [mix_backward_invalid_eq prox_lam n m k is_input index niter S dS z dz V U
    W Phi gnrm Snrms h]
  exact ⟨fun i hi => by simp [hi], fun i j => rfl, rfl⟩

/-- Witness for the amended claim C2 at the degenerate concrete instance:
`dz[0]` and `dz[1]` are zeroed, `dS` keeps its incoming entry, and no
adjoint sweep ran. -/
theorem claim_C2_amended_witness :
    (mix_backward 0 2 1 1 (fun _ => false) exIndex 1 exS exDS5 exZzero exDZ1
      exVone exV0 exZeroM exZeroM exGnrm1 exSnrms).dz 1 = 0 ∧
    (mix_backward 0 2 1 1 (fun _ => false) exIndex 1 exS exDS5 exZzero exDZ1
      exVone exV0 exZeroM exZeroM exGnrm1 exSnrms).dS 1 0 = exDS5 1 0 ∧
    (mix_backward 0 2 1 1 (fun _ => false) exIndex 1 exS exDS5 exZzero exDZ1
      exVone exV0 exZeroM exZeroM exGnrm1 exSnrms).calls = 0 :=
  ⟨(claim_C2_amended 0 2 1 1 (fun _ => false) exIndex 1 exS exDS5 exZzero exDZ1
      exVone exV0 exZeroM exZeroM exGnrm1 exSnrms exBack_invalid).1 1 (by omega),
   (claim_C2_amended 0 2 1 1 (fun _ => false) exIndex 1 exS exDS5 exZzero exDZ1
      exVone exV0 exZeroM exZeroM exGnrm1 exSnrms exBack_invalid).2.1 1 0,
   (claim_C2_amended 0 2 1 1 (fun _ => false) exIndex 1 exS exDS5 exZzero exDZ1
      exVone exV0 exZeroM exZeroM exGnrm1 exSnrms exBack_invalid).2.2⟩

/-- Claim C10: on the non-degenerate path `mix_backward` never writes
`dz[0]` — the rescaling loop touches only visited (nonzero) ids and the
final gradient loop starts at `i = 1` — while on the degenerate path every
entry of `dz` below `n`, including `dz[0]`, is zeroed. -/
theorem claim_C10 :
    ∀ (prox_lam : ℝ) (n m k : ℕ) (is_input : ℕ → Bool) (index : List ℕ)
      (niter : ℕ) (S dS : ℕ → ℕ → ℝ) (z dz : ℕ → ℝ) (V U W Phi : ℕ → ℕ → ℝ)
      (gnrm Snrms : ℕ → ℝ),
      (¬ backInvalid (visitList index) z gnrm →
        (mix_backward prox_lam n m k is_input index niter S dS z dz V U W Phi
          gnrm Snrms).dz 0 = dz 0) ∧
      (backInvalid (visitList index) z gnrm →
        ∀ i, i < n →
          (mix_backward prox_lam n m k is_input index niter S dS z dz V U W Phi
            gnrm Snrms).dz i = 0) := by
  intro prox_lam n m k is_input index niter S dS z dz V U W Phi gnrm Snrms
  constructor
  · intro h
    simp only [mix_backward]
    rw [if_neg h]
    dsimp only
    rw [if_neg (by omega)]
    exact rescaleDz_frame (visitList index) z dz 0 (zero_not_mem_visitList index)
  · intro h i hi
    rw [mix_backward_invalid_eq prox_lam n m k is_input index niter S dS z dz V
      U W Phi gnrm Snrms h]
    simp [hi]

/-- Witness for claim C10: on the valid concrete instance `dz[0]` keeps its
incoming value; on the degenerate concrete instance `dz[0]` is zeroed. -/
theorem claim_C10_witness :
    (mix_backward 0 2 1 1 (fun _ => false) exIndex 1 exS exDS5 exZhalf exDZ1
      exVone exV0 exZeroM exZeroM exGnrm1 exSnrms).dz 0 = exDZ1 0 ∧
    (mix_backward 0 2 1 1 (fun _ => false) exIndex 1 exS exDS5 exZzero exDZ1
      exVone exV0 exZeroM exZeroM exGnrm1 exSnrms).dz 0 = 0 :=
  ⟨(claim_C10 0 2 1 1 (fun _ => false) exIndex 1 exS exDS5 exZhalf exDZ1
      exVone exV0 exZeroM exZeroM exGnrm1 exSnrms).1 exBack_not_invalid,
   (claim_C10 0 2 1 1 (fun _ => false) exIndex 1 exS exDS5 exZzero exDZ1
      exVone exV0 exZeroM exZeroM exGnrm1 exSnrms).2 exBack_invalid 0 (by omega)⟩

/-- Claim C9: `mix_forward` writes the decoded-value array only at ids in
the visited prefix of the index array; every other entry of `z` is
unchanged. -/
theorem claim_C9 :
    ∀ (max_iter : ℕ) (eps : ℝ) (n m k : ℕ) (index : List ℕ) (S : ℕ → ℕ → ℝ)
      (Snrms : ℕ → ℝ) (z : ℕ → ℝ) (st : KernelSt) (j : ℕ),
      j ∉ visitList index →
      (mix_forward max_iter eps n m k index S Snrms z st).z j = z j := by
  intro max_iter eps n m k index S Snrms z st j hj
  simp only [mix_forward]
  exact foldl_update_frame _ (visitList index) z j hj

/-- Witness for claim C9: the unvisited entry 0 of `z` keeps its incoming
value 5. -/
theorem claim_C9_witness :
    (mix_forward 2 1 2 1 1 exIndex exS exSnrms exZ exSt0).z 0 = exZ 0 :=
  claim_C9 2 1 2 1 1 exIndex exS exSnrms exZ exSt0 0 (by decide)

/-- Claim C6: after the forward loop, every visited variable's decoded
value equals `saturate(1 - acos(c)/π)` with
`c = saturate((V[i][0]+1)/2)*2 - 1` taken from the final embedding matrix,
and every decoded value written lies in `[0, 1]`. -/
theorem claim_C6 :
    ∀ (max_iter : ℕ) (eps : ℝ) (n m k : ℕ) (index : List ℕ) (S : ℕ → ℕ → ℝ)
      (Snrms : ℕ → ℝ) (z : ℕ → ℝ) (st : KernelSt) (i : ℕ),
      i ∈ visitList index →
      (mix_forward max_iter eps n m k index S Snrms z st).z i
        = decodeVal ((mix_forward max_iter eps n m k index S Snrms z st).st.V i 0) ∧
      0 ≤ (mix_forward max_iter eps n m k index S Snrms z st).z i ∧
      (mix_forward max_iter eps n m k index S Snrms z st).z i ≤ 1 := by
  intro max_iter eps n m k index S Snrms z st i hi
  have hz : (mix_forward max_iter eps n m k index S Snrms z st).z i
      = decodeVal ((forwardLoop m k index S Snrms max_iter 0 eps st).1.V i 0) := by
    simp only [mix_forward]
    exact foldl_update_apply _ (visitList index) z i hi
  refine ⟨hz, ?_, ?_⟩
  · rw [hz]
    exact (saturate_bounds _).1
  · rw [hz]
    exact (saturate_bounds _).2

/-- Witness for claim C6 at the concrete instance: the visited variable 1
is decoded through `decodeVal` from the final embedding and lies in
`[0, 1]`. -/
theorem claim_C6_witness :
    (mix_forward 2 1 2 1 1 exIndex exS exSnrms exZ exSt0).z 1
      = decodeVal ((mix_forward 2 1 2 1 1 exIndex exS exSnrms exZ exSt0).st.V 1 0) ∧
    0 ≤ (mix_forward 2 1 2 1 1 exIndex exS exSnrms exZ exSt0).z 1 ∧
    (mix_forward 2 1 2 1 1 exIndex exS exSnrms exZ exSt0).z 1 ≤ 1 :=
  claim_C6 2 1 2 1 1 exIndex exS exSnrms exZ exSt0 1 (by decide)

/-- The forward loop never changes row 0 of the embedding matrix. -/
lemma forwardLoop_V_row0 (m k : ℕ) (index : List ℕ) (S : ℕ → ℕ → ℝ)
    (Snrms : ℕ → ℝ) :
    ∀ (r iter : ℕ) (eps : ℝ) (st : KernelSt) (kk : ℕ),
      (forwardLoop m k index S Snrms r iter eps st).1.V 0 kk = st.V 0 kk := by
  intro r
  induction r with
  | zero => intro iter eps st kk; rfl
  | succ r ih =>
    intro iter eps st kk
    simp only [forwardLoop]
    split_ifs with h
    · exact mix_kernel_V_row0 true 0 m k index S (fun _ => 0) (fun _ _ => 0)
        Snrms st kk
    all_goals
      rw [ih]
      exact mix_kernel_V_row0 true 0 m k index S (fun _ => 0) (fun _ _ => 0)
        Snrms st kk

/-- The adjoint loop never changes row 0 of the matrix it updates. -/
lemma adjointLoop_V_row0 (prox_lam : ℝ) (m k : ℕ) (index : List ℕ)
    (S : ℕ → ℕ → ℝ) (dz : ℕ → ℝ) (Vproj : ℕ → ℕ → ℝ) (Snrms : ℕ → ℝ) :
    ∀ (t : ℕ) (st : KernelSt) (kk : ℕ),
      (adjointLoop prox_lam m k index S dz Vproj Snrms t st).1.V 0 kk
        = st.V 0 kk := by
  intro t
  induction t with
  | zero => intro st kk; rfl
  | succ t ih =>
    intro st kk
    simp only [adjointLoop]
    rw [ih]
    exact mix_kernel_V_row0 false prox_lam m k index S dz Vproj Snrms st kk

/-- Claim C7, amended: the coordinate-update kernel (in either mode), the
forward pass, and the backward pass never modify row 0 of the matrix they
update (`V` for the kernel and the forward pass, `U` for the backward
pass); the visitation loop stops at the sentinel 0 before ever reaching
that row.  Initialization, however, does rewrite row 0 like any other row
(see the counterexample), so the claim's inclusion of `mix_init` fails. -/
theorem claim_C7_amended :
    (∀ (is_forward : Bool) (prox_lam : ℝ) (m k : ℕ) (index : List ℕ)
      (S : ℕ → ℕ → ℝ) (dz : ℕ → ℝ) (Vproj : ℕ → ℕ → ℝ) (Snrms : ℕ → ℝ)
      (st : KernelSt) (kk : ℕ),
      (mix_kernel is_forward prox_lam m k index S dz Vproj Snrms st).1.V 0 kk
        = st.V 0 kk)
    ∧ (∀ (max_iter : ℕ) (eps : ℝ) (n m k : ℕ) (index : List ℕ)
        (S : ℕ → ℕ → ℝ) (Snrms : ℕ → ℝ) (z : ℕ → ℝ) (st : KernelSt) (kk : ℕ),
        (mix_forward max_iter eps n m k index S Snrms z st).st.V 0 kk
          = st.V 0 kk)
    ∧ (∀ (prox_lam : ℝ) (n m k : ℕ) (is_input : ℕ → Bool) (index : List ℕ)
        (niter : ℕ) (S dS : ℕ → ℕ → ℝ) (z dz : ℕ → ℝ) (V U W Phi : ℕ → ℕ → ℝ)
        (gnrm Snrms : ℕ → ℝ) (kk : ℕ),
        (mix_backward prox_lam n m k is_input index niter S dS z dz V U W Phi
          gnrm Snrms).U 0 kk = U 0 kk) := by
  refine ⟨?_, ?_, ?_⟩
  · intro is_forward prox_lam m k index S dz Vproj Snrms st kk
    exact mix_kernel_V_row0 is_forward prox_lam m k index S dz Vproj Snrms st kk
  · intro max_iter eps n m k index S Snrms z st kk
    exact forwardLoop_V_row0 m k index S Snrms max_iter 0 eps st kk
  · intro prox_lam n m k is_input index niter S dS z dz V U W Phi gnrm Snrms kk
    by_cases h : backInvalid (visitList index) z gnrm
    · rw [mix_backward_invalid_eq prox_lam n m k is_input index niter S dS z dz
        V U W Phi gnrm Snrms h]
    · simp only [mix_backward]
      rw [if_neg h]
      dsimp only
      exact adjointLoop_V_row0 prox_lam m k index S
        (rescaleDz (visitList index) z dz) V Snrms niter ⟨U, Phi, gnrm⟩ kk

lemma cos_half_mul_pi : Real.cos ((1 / 2 : ℝ) * Real.pi) = 0 := by
  rw [show ((1 : ℝ) / 2) * Real.pi = Real.pi / 2 by ring]
  exact Real.cos_pi_div_two

/-- Claim C7, counterexample: `mix_init` does rewrite row 0.  On a one
variable instance flagged as input with `z[0] = 1/2` and previous row 0
equal to `(1, 1)`, initialization sets `V[0][0] = -cos(π/2) = 0 ≠ 1`. -/
theorem claim_C7_counterexample :
    mix_init_V 1 2 (fun _ => true) exZhalf exVone 0 0 ≠ exVone 0 0 := by
  simp only [mix_init_V]
  norm_num [exZhalf, exVone, cos_half_mul_pi]

/-- Replacing one summand of a weighted sum: the sum changes by the delta
of the replaced row times its weight. -/
lemma sum_update_row (n i : ℕ) (hin : i < n) (f : ℕ → ℝ) (a : ℝ) (s : ℕ → ℝ) :
    ∑ x in Finset.range n, (if x = i then a else f x) * s x
      = ∑ x in Finset.range n, f x * s x + (a - f i) * s i := by
  have hmem : i ∈ Finset.range n := Finset.mem_range.mpr hin
  rw [← Finset.sum_erase_add (Finset.range n)
      (fun x => (if x = i then a else f x) * s x) hmem,
    ← Finset.sum_erase_add (Finset.range n) (fun x => f x * s x) hmem]
  have herase : ∑ x in (Finset.range n).erase i, (if x = i then a else f x) * s x
      = ∑ x in (Finset.range n).erase i, f x * s x :=
    Finset.sum_congr rfl (fun x hx => by rw [if_neg (Finset.ne_of_mem_erase hx)])
  rw [herase, if_pos rfl]
  ring

/-- One kernel step preserves the accumulator relation
`W[kk][j] = Σ_{x<n} V[x][kk]·S[x][j]` (exact arithmetic), in either mode:
the step adds `(V_i_new − V_i_old) ⊗ S_i` to `W`. -/
lemma kernelStep_W_invariant (is_forward : Bool) (prox_lam : ℝ) (n m k : ℕ)
    (S : ℕ → ℕ → ℝ) (dz : ℕ → ℝ) (Vproj : ℕ → ℕ → ℝ) (Snrms : ℕ → ℝ)
    (st : KernelSt) (i : ℕ) (hin : i < n)
    (hW : ∀ kk, kk < k → ∀ j, j < m →
      st.W kk j = ∑ x in Finset.range n, st.V x kk * S x j) :
    ∀ kk, kk < k → ∀ j, j < m →
      (kernelStep is_forward prox_lam m k S dz Vproj Snrms st i).1.W kk j
        = ∑ x in Finset.range n,
            (kernelStep is_forward prox_lam m k S dz Vproj Snrms st i).1.V x kk
              * S x j := by
  intro kk hkk j hj
  have hVx : ∀ x,
      (kernelStep is_forward prox_lam m k S dz Vproj Snrms st i).1.V x kk
        = if x = i
            then (kernelStep is_forward prox_lam m k S dz Vproj Snrms st i).1.V i kk
            else st.V x kk := by
    intro x
    by_cases hx : x = i
    · subst hx; rw [if_pos rfl]
    · simp [kernelStep, hx]
  have hW' : (kernelStep is_forward prox_lam m k S dz Vproj Snrms st i).1.W kk j
      = st.W kk j
        + ((kernelStep is_forward prox_lam m k S dz Vproj Snrms st i).1.V i kk
            - st.V i kk) * S i j := by
    simp [kernelStep, hkk, hj]
  calc (kernelStep is_forward prox_lam m k S dz Vproj Snrms st i).1.W kk j
      = st.W kk j
        + ((kernelStep is_forward prox_lam m k S dz Vproj Snrms st i).1.V i kk
            - st.V i kk) * S i j := hW'
    _ = ∑ x in Finset.range n, st.V x kk * S x j
        + ((kernelStep is_forward prox_lam m k S dz Vproj Snrms st i).1.V i kk
            - st.V i kk) * S i j := by rw [hW kk hkk j hj]
    _ = ∑ x in Finset.range n,
          (if x = i
            then (kernelStep is_forward prox_lam m k S dz Vproj Snrms st i).1.V i kk
            else st.V x kk) * S x j :=
        (sum_update_row n i hin (fun x => st.V x kk) _ (fun x => S x j)).symm
    _ = ∑ x in Finset.range n,
          (kernelStep is_forward prox_lam m k S dz Vproj Snrms st i).1.V x kk
            * S x j :=
        Finset.sum_congr rfl (fun x _ => by rw [← hVx x])

/-- The state threaded through the `mix_kernel` fold is the plain state
fold. -/
lemma mix_kernel_st_eq (is_forward : Bool) (prox_lam : ℝ) (m k : ℕ)
    (S : ℕ → ℕ → ℝ) (dz : ℕ → ℝ) (Vproj : ℕ → ℕ → ℝ) (Snrms : ℕ → ℝ) :
    ∀ (l : List ℕ) (st : KernelSt) (d : ℝ),
      ((l.foldl (fun p i =>
          let r := kernelStep is_forward prox_lam m k S dz Vproj Snrms p.1 i
          (r.1, p.2 + r.2)) (st, d)).1)
        = kernelFoldSt is_forward prox_lam m k S dz Vproj Snrms l st := by
  intro l
  induction l with
  | nil => intro st d; rfl
  | cons a l ih =>
    intro st d
    rw [List.foldl_cons]
    exact ih _ _

/-- The kernel sweep over any id list of in-range ids preserves the
accumulator relation. -/
lemma kernelFoldSt_W_invariant (is_forward : Bool) (prox_lam : ℝ) (n m k : ℕ)
    (S : ℕ → ℕ → ℝ) (dz : ℕ → ℝ) (Vproj : ℕ → ℕ → ℝ) (Snrms : ℕ → ℝ) :
    ∀ (l : List ℕ) (st : KernelSt), (∀ i ∈ l, i < n) →
      (∀ kk, kk < k → ∀ j, j < m →
        st.W kk j = ∑ x in Finset.range n, st.V x kk * S x j) →
      ∀ kk, kk < k → ∀ j, j < m →
        (kernelFoldSt is_forward prox_lam m k S dz Vproj Snrms l st).W kk j
          = ∑ x in Finset.range n,
              (kernelFoldSt is_forward prox_lam m k S dz Vproj Snrms l st).V x kk
                * S x j := by
  intro l
  induction l with
  | nil => intro st _ hW; exact hW
  | cons a l ih =>
    intro st hl hW
    have ha : a < n := hl a (List.mem_cons_self a l)
    exact ih _ (fun i hi => hl i (List.mem_cons_of_mem a hi))
      (kernelStep_W_invariant is_forward prox_lam n m k S dz Vproj Snrms st a
        ha hW)

/-- Claim C4: in exact arithmetic the coordinate-update kernel preserves
the accumulator relation `W = Σ_x V_x ⊗ S_x` (over the `n` variables, on
the written extents `kk < k`, `j < m`), in forward and adjoint mode alike,
because each variable update adds `(V_i_new − V_i_old) ⊗ S_i` to `W`. -/
theorem claim_C4 :
    ∀ (is_forward : Bool) (prox_lam : ℝ) (n m k : ℕ) (index : List ℕ)
      (S : ℕ → ℕ → ℝ) (dz : ℕ → ℝ) (Vproj : ℕ → ℕ → ℝ) (Snrms : ℕ → ℝ)
      (st : KernelSt),
      (∀ i ∈ visitList index, i < n) →
      (∀ kk, kk < k → ∀ j, j < m →
        st.W kk j = ∑ x in Finset.range n, st.V x kk * S x j) →
      ∀ kk, kk < k → ∀ j, j < m →
        (mix_kernel is_forward prox_lam m k index S dz Vproj Snrms st).1.W kk j
          = ∑ x in Finset.range n,
              (mix_kernel is_forward prox_lam m k index S dz Vproj Snrms st).1.V
                x kk * S x j := by
  intro is_forward prox_lam n m k index S dz Vproj Snrms st hl hW
  have he := mix_kernel_st_eq is_forward prox_lam m k S dz Vproj Snrms
    (visitList index) st 0
  simp only [mix_kernel, he]
  exact kernelFoldSt_W_invariant is_forward prox_lam n m k S dz Vproj Snrms
    (visitList index) st hl hW

/-- Witness for claim C4 at a concrete instance (`n = 2`, `m = k = 1`,
zero `V` and `W`): the relation holds at entry and is preserved by the
sweep. -/
theorem claim_C4_witness :
    (mix_kernel true 0 1 1 exIndex exS (fun _ => 0) (fun _ _ => 0) exSnrms
      ⟨exV0, exZeroM, exZeroV⟩).1.W 0 0
      = ∑ x in Finset.range 2,
          (mix_kernel true 0 1 1 exIndex exS (fun _ => 0) (fun _ _ => 0) exSnrms
            ⟨exV0, exZeroM, exZeroV⟩).1.V x 0 * exS x 0 :=
  claim_C4 true 0 2 1 1 exIndex exS (fun _ => 0) (fun _ _ => 0) exSnrms
    ⟨exV0, exZeroM, exZeroV⟩ (by decide)
    (fun kk _ j _ => by simp [exZeroM, exV0, exS]) 0 (by omega) 0 (by omega)

/-- `snrm2` only reads the first `k` entries. -/
lemma snrm2Fn_congr (x y : ℕ → ℝ) (k : ℕ) (h : ∀ kk, kk < k → x kk = y kk) :
    snrm2Fn x k = snrm2Fn y k := by
  unfold snrm2Fn sdotFn
  congr 1
  exact Finset.sum_congr rfl
    (fun kk hkk => by rw [h kk (Finset.mem_range.mp hkk)])

/-- A forward-mode kernel step leaves the visited row with Euclidean norm 1
whenever its normalizing divisor is nonzero: the row becomes
`-g / ‖g‖`. -/
lemma kernelStep_fwd_row_norm (m k : ℕ) (S : ℕ → ℕ → ℝ) (dz : ℕ → ℝ)
    (Vproj : ℕ → ℕ → ℝ) (Snrms : ℕ → ℝ) (st : KernelSt) (i : ℕ)
    (hdiv : fwdDivisor m k S Snrms st i ≠ 0) :
    snrm2Fn (fun kk =>
      (kernelStep true 0 m k S dz Vproj Snrms st i).1.V i kk) k = 1 := by
  have hs0 : 0 ≤ sdotFn (gvec m S Snrms st i) (gvec m S Snrms st i) k :=
    Finset.sum_nonneg (fun x _ => mul_self_nonneg _)
  have hspos : 0 < sdotFn (gvec m S Snrms st i) (gvec m S Snrms st i) k := by
    rcases lt_or_eq_of_le hs0 with h | h
    · exact h
    · exact absurd (by rw [fwdDivisor, snrm2Fn, ← h, Real.sqrt_zero]) hdiv
  have hrow : ∀ kk, kk < k →
      (kernelStep true 0 m k S dz Vproj Snrms st i).1.V i kk
        = -1 * gvec m S Snrms st i kk
            * (1 / Real.sqrt
                (sdotFn (gvec m S Snrms st i) (gvec m S Snrms st i) k)) := by
    intro kk hkk
    simp [kernelStep, snrm2Fn, hkk]
  have key : sdotFn
      (fun kk => (kernelStep true 0 m k S dz Vproj Snrms st i).1.V i kk)
      (fun kk => (kernelStep true 0 m k S dz Vproj Snrms st i).1.V i kk) k
        = 1 := by
    rw [sdotFn]
    have hterm : ∀ kk ∈ Finset.range k,
        (kernelStep true 0 m k S dz Vproj Snrms st i).1.V i kk
          * (kernelStep true 0 m k S dz Vproj Snrms st i).1.V i kk
          = gvec m S Snrms st i kk * gvec m S Snrms st i kk
            * ((1 / Real.sqrt
                (sdotFn (gvec m S Snrms st i) (gvec m S Snrms st i) k))
              * (1 / Real.sqrt
                (sdotFn (gvec m S Snrms st i) (gvec m S Snrms st i) k))) := by
      intro kk hkk
      rw [hrow kk (Finset.mem_range.mp hkk)]
      ring
    rw [Finset.sum_congr rfl hterm, ← Finset.sum_mul]
    rw [show (∑ kk in Finset.range k,
        gvec m S Snrms st i kk * gvec m S Snrms st i kk)
        = sdotFn (gvec m S Snrms st i) (gvec m S Snrms st i) k from rfl]
    rw [one_div_mul_one_div, Real.mul_self_sqrt hs0]
    exact mul_one_div_cancel (ne_of_gt hspos)
  rw [snrm2Fn, key, Real.sqrt_one]

/-- Frame property of the state fold: rows not in the swept list keep their
value. -/
lemma kernelFoldSt_V_frame (is_forward : Bool) (prox_lam : ℝ) (m k : ℕ)
    (S : ℕ → ℕ → ℝ) (dz : ℕ → ℝ) (Vproj : ℕ → ℕ → ℝ) (Snrms : ℕ → ℝ) :
    ∀ (l : List ℕ) (st : KernelSt) (i kk : ℕ), i ∉ l →
      (kernelFoldSt is_forward prox_lam m k S dz Vproj Snrms l st).V i kk
        = st.V i kk := by
  intro l
  induction l with
  | nil => intro st i kk _; rfl
  | cons a l ih =>
    intro st i kk hi
    have hia : i ≠ a := fun h => hi (h ▸ List.mem_cons_self a l)
    have hil : i ∉ l := fun h => hi (List.mem_cons_of_mem a h)
    calc (kernelFoldSt is_forward prox_lam m k S dz Vproj Snrms (a :: l) st).V i kk
        = (kernelStep is_forward prox_lam m k S dz Vproj Snrms st a).1.V i kk :=
          ih _ i kk hil
      _ = st.V i kk :=
          kernelStep_V_frame is_forward prox_lam m k S dz Vproj Snrms st a i kk
            hia

/-- After a forward sweep over a duplicate-free id list, every swept row
whose step divisor was nonzero ends with Euclidean norm 1. -/
lemma kernelFoldSt_rows_unit (m k : ℕ) (S : ℕ → ℕ → ℝ) (dz : ℕ → ℝ)
    (Vproj : ℕ → ℕ → ℝ) (Snrms : ℕ → ℝ) :
    ∀ (l : List ℕ) (st : KernelSt), l.Nodup →
      (∀ (l1 l2 : List ℕ) (i : ℕ), l = l1 ++ i :: l2 →
        fwdDivisor m k S Snrms
          (kernelFoldSt true 0 m k S dz Vproj Snrms l1 st) i ≠ 0) →
      ∀ i ∈ l,
        snrm2Fn (fun kk =>
          (kernelFoldSt true 0 m k S dz Vproj Snrms l st).V i kk) k = 1 := by
  intro l
  induction l with
  | nil => intro st _ _ i hi; exact absurd hi (List.not_mem_nil i)
  | cons a l ih =>
    intro st hnd hdiv i hi
    have hstep : kernelFoldSt true 0 m k S dz Vproj Snrms (a :: l) st
        = kernelFoldSt true 0 m k S dz Vproj Snrms l
            (kernelStep true 0 m k S dz Vproj Snrms st a).1 := rfl
    rcases List.mem_cons.mp hi with h | h
    · subst h
      have hnotmem : i ∉ l := (List.nodup_cons.mp hnd).1
      rw [hstep, snrm2Fn_congr _
        (fun kk => (kernelStep true 0 m k S dz Vproj Snrms st i).1.V i kk) k
        (fun kk _ => kernelFoldSt_V_frame true 0 m k S dz Vproj Snrms l _ i kk
          hnotmem)]
      exact kernelStep_fwd_row_norm m k S dz Vproj Snrms st i (hdiv [] l i rfl)
    · rw [hstep]
      refine ih _ (List.nodup_cons.mp hnd).2 ?_ i h
      intro l1 l2 j hl
      exact hdiv (a :: l1) l2 j (by rw [List.cons_append, ← hl])

/-- Claim C3, amended: after a forward-mode kernel call over a
duplicate-free visitation prefix, every visited row of `V` has Euclidean
norm 1, provided the normalizing divisor of each step is nonzero.  In
adjoint mode the update divides by `gnrm[i] + λ` instead of the norm of the
new direction, so the updated rows of the adjoint matrix need not be unit
(see the counterexample). -/
theorem claim_C3_amended :
    ∀ (m k : ℕ) (index : List ℕ) (S : ℕ → ℕ → ℝ) (dz : ℕ → ℝ)
      (Vproj : ℕ → ℕ → ℝ) (Snrms : ℕ → ℝ) (st : KernelSt),
      (visitList index).Nodup →
      (∀ (l1 l2 : List ℕ) (i : ℕ), visitList index = l1 ++ i :: l2 →
        fwdDivisor m k S Snrms
          (kernelFoldSt true 0 m k S dz Vproj Snrms l1 st) i ≠ 0) →
      ∀ i ∈ visitList index,
        snrm2Fn (fun kk =>
          (mix_kernel true 0 m k index S dz Vproj Snrms st).1.V i kk) k = 1 := by
  intro m k index S dz Vproj Snrms st hnd hdiv i hi
  have he := mix_kernel_st_eq true 0 m k S dz Vproj Snrms (visitList index) st 0
  simp only [mix_kernel, he]
  exact kernelFoldSt_rows_unit m k S dz Vproj Snrms (visitList index) st hnd
    hdiv i hi

lemma ex3_divisor : fwdDivisor 1 1 exS exSnrms exSt0 1 ≠ 0 := by
  simp [fwdDivisor, snrm2Fn, gvec, sdotFn, exS, exSnrms, exSt0, exV0, exW0]

/-- Witness for the amended claim C3 at the concrete forward instance: the
single visited row ends with norm 1. -/
theorem claim_C3_amended_witness :
    snrm2Fn (fun kk => (mix_kernel true 0 1 1 exIndex exS (fun _ => 0)
      (fun _ _ => 0) exSnrms exSt0).1.V 1 kk) 1 = 1 :=
  claim_C3_amended 1 1 exIndex exS (fun _ => 0) (fun _ _ => 0) exSnrms exSt0
    (by decide)
    (by
      intro l1 l2 i h
      rw [visit_exIndex] at h
      rcases l1 with _ | ⟨a, l1⟩
      · rw [List.nil_append] at h
        injection h with h1 h2
        have hi : i = 1 := h1.symm
        subst hi
        subst h2
        exact ex3_divisor
      · exfalso
        rw [List.cons_append] at h
        injection h with h1 h2
        exact absurd h2.symm (List.append_ne_nil_of_right_ne_nil l1
          (List.cons_ne_nil i l2))
      )
    1 (by decide)

/-- Claim C3, counterexample: an adjoint-mode kernel call whose divisor
`gnrm[1] + λ = 1` is nonzero leaves the updated row of the adjoint matrix
with norm 0, not 1. -/
theorem claim_C3_counterexample :
    exGnrm1 1 + (0 : ℝ) ≠ 0 ∧
    (1 : ℕ) ∈ visitList exIndex ∧
    snrm2Fn (fun kk => (mix_kernel false 0 1 1 exIndex exSzero exDZ1 exVone
      exSnrms ⟨exV0, exZeroM, exGnrm1⟩).1.V 1 kk) 1 ≠ 1 := by
  refine ⟨by norm_num [exGnrm1], by decide, ?_⟩
  have hrow : (mix_kernel false 0 1 1 exIndex exSzero exDZ1 exVone exSnrms
      ⟨exV0, exZeroM, exGnrm1⟩).1.V 1 0 = 0 := by
    simp [mix_kernel, visit_exIndex, kernelStep, gvec, sdotFn, exSzero, exDZ1,
      exVone, exSnrms, exV0, exZeroM, exGnrm1]
  have hnorm : snrm2Fn (fun kk => (mix_kernel false 0 1 1 exIndex exSzero
      exDZ1 exVone exSnrms ⟨exV0, exZeroM, exGnrm1⟩).1.V 1 kk) 1 = 0 := by
    simp only [snrm2Fn, sdotFn, Finset.sum_range_one]
    rw [hrow]
    rw [mul_zero, Real.sqrt_zero]
  rw [hnorm]
  norm_num

end SATNet
